import Mathlib

/-!
Verification development for the Avenew text-messaging subsystem.

The data model and operations are shallowly embedded from the Python
sources:
  - `web/text/models.py` (the `Number`, `Thread` and `Text` models with
    `has_read`, `mark_unread`, `mark_read`, `sent_ago`, `recipients`),
  - `auto/apps/text.py` (the `send` and `to` screen commands),
  - `world/utils.py` (`latinify`).
Python strings are modelled as Lean `String` (phone numbers) or
`List Char` (where character-level slicing matters).  A stored `Number`
row is identified with its `db_phone_number` digit string.  Django
many-to-many sets are modelled as lists with set semantics (`add` is a
no-op on a present element, `remove` drops every link).
-/

namespace Avenew

/-- Python `s.replace("-", "")`: drop every hyphen of the string. -/
def stripDash (s : String) : String :=
  ⟨s.data.filter (fun c => c ≠ '-')⟩

/-- The error taxonomy of the spec: `InvalidNumberError` (malformed digit
string), `UnknownNumberError` (read-state operation on a number never seen
before; Django raises `Number.DoesNotExist` there), `ThreadNotFoundError`. -/
inductive Err where
  | InvalidNumberError : Err
  | UnknownNumberError : Err
  | ThreadNotFoundError : Err
deriving DecidableEq

/-- A stored phone number: exactly 7 digit characters, no separator. -/
def Valid7 (n : String) : Prop :=
  n.data.length = 7 ∧ (∀ c ∈ n.data, c.isDigit = true) ∧ '-' ∉ n.data

instance (n : String) : Decidable (Valid7 n) := by
  unfold Valid7; infer_instance

/-- A `Thread` row of `web/text/models.py`: display name `db_name`,
participant set `db_recipients` and read-marker set `db_read`, both
many-to-many sets of `Number` rows (kept here as phone-number strings). -/
structure Thread where
  name : String
  recipients : List String
  read : List String
deriving DecidableEq

/-- A `Text` row of `web/text/models.py`: `db_sender`, `db_date_sent`
(logical game-clock seconds), `db_content`, and the owning thread
(`db_thread` foreign key, kept as a row id). -/
structure Text where
  sender : String
  dateSent : Int
  content : String
  threadId : Nat
deriving DecidableEq

/-- `Thread.has_read`: strip hyphens, then test membership of the number
in the read-marker set of the thread (`self.db_read.filter(...).count() > 0`).
Total: it never fails, even on a number that was never stored. -/
def Thread.has_read (t : Thread) (number : String) : Bool :=
  t.read.contains (stripDash number)

/-- `Thread.mark_unread`: look the number up in the `Number` table
(`Number.objects.get`, after stripping hyphens) — failing with
`UnknownNumberError` when absent — then remove its read marker. -/
def Thread.mark_unread (numbers : List String) (t : Thread) (number : String) :
    Except Err Thread :=
  match numbers.find? (fun x => x == stripDash number) with
  | some n => .ok { t with read := t.read.filter (fun x => x ≠ n) }
  | none => .error .UnknownNumberError

/-- `Thread.mark_read`: look the number up in the `Number` table (after
stripping hyphens) — failing with `UnknownNumberError` when absent — then
add its read marker (`db_read.add`, a no-op when already present). -/
def Thread.mark_read (numbers : List String) (t : Thread) (number : String) :
    Except Err Thread :=
  match numbers.find? (fun x => x == stripDash number) with
  | some n => .ok { t with read := if t.read.contains n then t.read else n :: t.read }
  | none => .error .UnknownNumberError

/-- The persistent store: the `Number` table (digit strings), the `Thread`
table (row id paired with the row) and the `Text` table. -/
structure Db where
  numbers : List String
  threads : List (Nat × Thread)
  texts : List Text
deriving DecidableEq

/-- The empty store. -/
def emptyDb : Db := ⟨[], [], []⟩

/-- Foreign-key dereference: the thread row with the given id. -/
def findThread (db : Db) (tid : Nat) : Option Thread :=
  (db.threads.find? (fun p => p.1 == tid)).map Prod.snd

/-- Replace the thread row with the given id. -/
def updateThread (threads : List (Nat × Thread)) (tid : Nat) (t : Thread) :
    List (Nat × Thread) :=
  threads.map (fun p => if p.1 = tid then (tid, t) else p)

/-- `Thread.mark_read` acting on the store: dereference the thread row,
run the model method, write the updated row back. -/
def Db.markRead (db : Db) (tid : Nat) (number : String) : Except Err Db :=
  match findThread db tid with
  | none => .error .ThreadNotFoundError
  | some t =>
      (Thread.mark_read db.numbers t number).map
        (fun t' => { db with threads := updateThread db.threads tid t' })

/-- `Thread.mark_unread` acting on the store. -/
def Db.markUnread (db : Db) (tid : Nat) (number : String) : Except Err Db :=
  match findThread db tid with
  | none => .error .ThreadNotFoundError
  | some t =>
      (Thread.mark_unread db.numbers t number).map
        (fun t' => { db with threads := updateThread db.threads tid t' })

/-- `Text.recipients` (`web/text/models.py`): walk the owning thread and its
participant set and keep every number different from the sender of the text. -/
def Text.recipients (db : Db) (t : Text) : List String :=
  match findThread db t.threadId with
  | some th => th.recipients.filter (fun r => r ≠ t.sender)
  | none => []

/-- The participant set of a message: its sender together with its
`recipients` property. -/
def participantsOf (db : Db) (t : Text) : List String :=
  t.sender :: Text.recipients db t

/-- `Text.sent_ago` (`web/text/models.py`): elapsed seconds between the
current game clock and `db_date_sent`, rendered by the evennia library function
`time_format(seconds, 4)` — supplied here as a parameter, being
third-party code — and suffixed with `" ago"`. -/
def Text.sent_ago (timeFormatFn : Int → Nat → String) (gametimeNow : Int)
    (t : Text) : String :=
  timeFormatFn (gametimeNow - t.dateSent) 4 ++ " ago"

/-- Python `s.isdigit()` for the strings at hand: non-empty and composed
of digit characters only. -/
def pyIsDigit (s : String) : Bool :=
  !s.data.isEmpty && s.data.all (fun c => c.isDigit)

/-- Modelled from the spec: `resolve_or_create` of `web/text/managers.py`
(the managers module is not among the sources).  Per §4.1: strip hyphens;
fail with `InvalidNumberError` unless the result is exactly 7 digits;
insert a new `Number` row when none holds this digit string; return the
(existing or inserted) row. -/
def resolve_or_create (numbers : List String) (raw : String) :
    Except Err (List String × String) :=
  let n := stripDash raw
  if pyIsDigit n && n.data.length == 7 then
    if numbers.contains n then .ok (numbers, n)
    else .ok (numbers ++ [n], n)
  else .error .InvalidNumberError

/-- Resolve a whole recipient list through `resolve_or_create`,
threading the `Number` table. -/
def resolveAll (numbers : List String) : List String →
    Except Err (List String × List String)
  | [] => .ok (numbers, [])
  | r :: rest =>
    match resolve_or_create numbers r with
    | .error e => .error e
    | .ok (ns, n) =>
      match resolveAll ns rest with
      | .error e => .error e
      | .ok (ns', rest') => .ok (ns', n :: rest')

/-- Boolean set equality of two lists: same elements, order and
multiplicity ignored (per the spec: "order-independent, set equality — not a
superset/subset match"). -/
def sameSet (a b : List String) : Bool :=
  a.all (fun x => b.contains x) && b.all (fun x => a.contains x)

/-- Propositional set equality of two lists. -/
def setEq (a b : List String) : Prop :=
  ∀ x, x ∈ a ↔ x ∈ b

/-- Find an existing thread row whose participant set exactly equals the
given set. -/
def findThreadBySet (threads : List (Nat × Thread)) (parts : List String) :
    Option (Nat × Thread) :=
  threads.find? (fun p => sameSet p.2.recipients parts)

/-- A row id unused by the thread table. -/
def freshId (threads : List (Nat × Thread)) : Nat :=
  threads.foldr (fun p m => max (p.1 + 1) m) 0

/-- Modelled from the spec: `TextManager.send` of `web/text/managers.py`
(the managers module is not among the sources).  Per §4.2: resolve sender
and recipients (creating `Number` rows as needed); compute the
participant set as sender plus recipients; reuse the thread whose
participant set equals it exactly, else create a nameless thread with
that set; mark the thread unread for every recipient except the sender;
insert a `Text` row stamped with the current game-logical time and
return it. -/
def send (db : Db) (clock : Int) (sender : String) (rcpts : List String)
    (content : String) : Except Err (Db × Text) :=
  match resolve_or_create db.numbers sender with
  | .error e => .error e
  | .ok (ns1, s) =>
    match resolveAll ns1 rcpts with
    | .error e => .error e
    | .ok (ns2, rs) =>
      match findThreadBySet db.threads ((s :: rs).dedup) with
      | some (tid, th) =>
          let th' := { th with
            read := th.read.filter (fun x => !(rs.filter (fun r => r ≠ s)).contains x) }
          let t : Text := ⟨s, clock, content, tid⟩
          .ok ({ numbers := ns2, threads := updateThread db.threads tid th',
                 texts := db.texts ++ [t] }, t)
      | none =>
          let tid := freshId db.threads
          let th : Thread := { name := "", recipients := (s :: rs).dedup, read := [] }
          let t : Text := ⟨s, clock, content, tid⟩
          .ok ({ numbers := ns2, threads := db.threads ++ [(tid, th)],
                 texts := db.texts ++ [t] }, t)

/-- The states the store can reach: the empty store, evolved by
successful `send`, `mark_read` and `mark_unread` operations. -/
inductive Reachable : Db → Prop where
  | init : Reachable emptyDb
  | send {db clock s rs c db' t} : Reachable db →
      send db clock s rs c = .ok (db', t) → Reachable db'
  | markRead {db tid n db'} : Reachable db →
      Db.markRead db tid n = .ok db' → Reachable db'
  | markUnread {db tid n db'} : Reachable db →
      Db.markUnread db tid n = .ok db' → Reachable db'

/-- Outcome of the `send` screen command. -/
inductive SendOutcome where
  | noRecipients : SendOutcome
  | keyErrorCrash : SendOutcome
  | emptyContent : SendOutcome
  | sent : String → List String → String → SendOutcome
deriving DecidableEq

/-- `CmdSend.func` (`auto/apps/text.py`), its guard logic: with an empty
recipient list it reports the missing-recipient message and returns; with
empty content it reports the empty-text message and returns; only then
does it call `Text.objects.send(sender, recipients, content)`.  The
screen store is read as a get with default for the recipients and as a
plain key access for the content — the latter raises when the key was
never written, which also never reaches `send`. -/
def cmdSendFunc (sender : String) (recipients : List String)
    (contentEntry : Option String) : SendOutcome :=
  if recipients.isEmpty then .noRecipients
  else
    match contentEntry with
    | none => .keyErrorCrash
    | some content =>
        if content = "" then .emptyContent
        else .sent sender recipients content

/-- Outcome of the `to` screen command, after contact-name resolution. -/
inductive ToOutcome where
  | invalid : ToOutcome
  | nameErrorCrash : ToOutcome
  | added : List String → ToOutcome
deriving DecidableEq

/-- `CmdTo.func` (`auto/apps/text.py`), its number-handling tail: strip
hyphens, reject unless the result is a 7-digit string ("This is not a
valid phone number."); when already a recipient the removal branch reads
the unbound name `recipient` (a `NameError` in the source as written);
otherwise append the stripped number to the recipient list. -/
def cmdToFunc (recipients : List String) (arg : String) : ToOutcome :=
  let number := stripDash arg
  if !(pyIsDigit number) || number.data.length ≠ 7 then .invalid
  else if recipients.contains number then .nameErrorCrash
  else .added (recipients ++ [number])

/-- `_UNICODE_MAPPING` (`world/utils.py`): the default mapping, empty. -/
def UNICODE_MAPPING : List (Char × List Char) := []

/-- Python `s.replace(c, repl)` for a single-character pattern. -/
def replaceChar (s : List Char) (c : Char) (repl : List Char) : List Char :=
  s.foldr (fun x acc => if x = c then repl ++ acc else x :: acc) []

/-- The character loop of `latinify`: `for i, char in enumerate(s)` walks
the characters of the string as it stood when the loop started, while the
replacement `s[:i] + replace + s[i+1:]` slices the current string. -/
def asciiPass (replace : List Char) : List Char → Nat → List Char → List Char
  | [], _, cur => cur
  | c :: rest, i, cur =>
      if 128 ≤ c.toNat then
        asciiPass replace rest (i + 1) (cur.take i ++ replace ++ cur.drop (i + 1))
      else
        asciiPass replace rest (i + 1) cur

/-- `latinify` (`world/utils.py`): apply the mapping replacements, then
overwrite every remaining character of code point 128 or above with the
`replace` string.  Strings are modelled as character lists. -/
def latinify (s : List Char) (replace : List Char := ['?'])
    (mapping : List (Char × List Char) := UNICODE_MAPPING) : List Char :=
  let s := mapping.foldl (fun acc p => replaceChar acc p.1 p.2) s
  asciiPass replace s 0 s

/-! Helper lemmas. -/

/-- Stripping hyphens is idempotent. -/
lemma stripDash_idem (s : String) : stripDash (stripDash s) = stripDash s := by
  unfold stripDash
  refine congrArg String.mk ?_
  apply List.filter_eq_self.mpr
  intro a ha
  exact (List.mem_filter.mp ha).2

/-- Finding an element by equality returns that element. -/
lemma find?_beq_self {a : String} {l : List String} (h : a ∈ l) :
    l.find? (fun x => x == a) = some a := by
  induction l with
  | nil => cases h
  | cons b l ih =>
      by_cases hb : b = a
      · subst hb
        simp [List.find?_cons]
      · have hba : (b == a) = false := beq_eq_false_iff_ne.mpr hb
        have hmem : a ∈ l := by
          cases h with
          | head => exact absurd rfl hb
          | tail _ h => exact h
        simp [List.find?_cons, hba, ih hmem]

/-- Finding an element by equality fails when it is absent. -/
lemma find?_beq_none {a : String} {l : List String} (h : a ∉ l) :
    l.find? (fun x => x == a) = none := by
  apply List.find?_eq_none.mpr
  intro x hx
  simp only [beq_iff_eq]
  intro hxa
  exact h (hxa ▸ hx)

/-- Filtering is idempotent. -/
lemma filter_idem {α : Type} (p : α → Bool) (l : List α) :
    (l.filter p).filter p = l.filter p := by
  apply List.filter_eq_self.mpr
  intro a ha
  exact (List.mem_filter.mp ha).2

/-! Claim theorems: read-state machine. -/

/-- C3: for an existing number, `mark_read` then `has_read` is true,
`mark_unread` then `has_read` is false, and both operations are
idempotent — repeating either leaves the read-marker state unchanged. -/
theorem mark_read_unread_spec (numbers : List String) (t : Thread) (n : String)
    (h : stripDash n ∈ numbers) :
    (∃ t', Thread.mark_read numbers t n = .ok t' ∧
      Thread.has_read t' n = true ∧ Thread.mark_read numbers t' n = .ok t') ∧
    (∃ t'', Thread.mark_unread numbers t n = .ok t'' ∧
      Thread.has_read t'' n = false ∧ Thread.mark_unread numbers t'' n = .ok t'') := by
  constructor
  · refine ⟨{ t with read := if t.read.contains (stripDash n) then t.read
        else stripDash n :: t.read }, ?_, ?_, ?_⟩
    · unfold Thread.mark_read
      rw [find?_beq_self h]
    · unfold Thread.has_read
      by_cases hc : stripDash n ∈ t.read <;> simp [hc]
    · unfold Thread.mark_read
      rw [find?_beq_self h]
      by_cases hc : stripDash n ∈ t.read <;> simp [hc]
  · refine ⟨{ t with read := t.read.filter (fun x => x ≠ stripDash n) }, ?_, ?_, ?_⟩
    · unfold Thread.mark_unread
      rw [find?_beq_self h]
    · unfold Thread.has_read
      simp [List.mem_filter]
    · unfold Thread.mark_unread
      rw [find?_beq_self h]
      simp [filter_idem]

/-- Witness for C3 at a concrete thread and number. -/
theorem mark_read_unread_spec_witness :
    ∃ t', Thread.mark_read ["5550001"] ⟨"", ["5550001"], []⟩ "555-0001" = .ok t' ∧
      Thread.has_read t' "555-0001" = true := by
  obtain ⟨⟨t', h1, h2, _⟩, _⟩ :=
    mark_read_unread_spec ["5550001"] ⟨"", ["5550001"], []⟩ "555-0001" (by decide)
  exact ⟨t', h1, h2⟩

/-- C4: a read-state operation on a phone number with no `Number` row
fails with `UnknownNumberError`, and neither operation ever changes the
`Number` table. -/
theorem unknown_number_spec (db : Db) (tid : Nat) (n : String) (t : Thread)
    (hth : findThread db tid = some t) (hn : stripDash n ∉ db.numbers) :
    Db.markRead db tid n = .error .UnknownNumberError ∧
    Db.markUnread db tid n = .error .UnknownNumberError ∧
    (∀ m db', Db.markRead db tid m = .ok db' → db'.numbers = db.numbers) ∧
    (∀ m db', Db.markUnread db tid m = .ok db' → db'.numbers = db.numbers) := by
  have hfind := find?_beq_none hn
  refine ⟨?_, ?_, ?_, ?_⟩
  · unfold Db.markRead
    rw [hth]
    unfold Thread.mark_read
    rw [hfind]
    rfl
  · unfold Db.markUnread
    rw [hth]
    unfold Thread.mark_unread
    rw [hfind]
    rfl
  · intro m db' hok
    unfold Db.markRead at hok
    rcases hfth : findThread db tid with _ | t₀ <;> rw [hfth] at hok
    · cases hok
    · unfold Thread.mark_read at hok
      rcases hf : db.numbers.find? (fun x => x == stripDash m) with _ | n₀ <;>
        rw [hf] at hok <;> cases hok
      rfl
  · intro m db' hok
    unfold Db.markUnread at hok
    rcases hfth : findThread db tid with _ | t₀ <;> rw [hfth] at hok
    · cases hok
    · unfold Thread.mark_unread at hok
      rcases hf : db.numbers.find? (fun x => x == stripDash m) with _ | n₀ <;>
        rw [hf] at hok <;> cases hok
      rfl

/-- Witness for C4 at a concrete store and unknown number. -/
theorem unknown_number_spec_witness :
    Db.markRead ⟨["5550001"], [(0, ⟨"", ["5550001"], []⟩)], []⟩ 0 "5550099"
      = .error .UnknownNumberError := by
  exact (unknown_number_spec ⟨["5550001"], [(0, ⟨"", ["5550001"], []⟩)], []⟩ 0
    "5550099" ⟨"", ["5550001"], []⟩ (by decide) (by decide)).1

/-- C9: the read-state operations normalize their argument by stripping
hyphens, so the hyphenated display form and the bare digit form behave
identically and produce the same state. -/
theorem read_ops_strip_hyphens (t : Thread) (numbers : List String) (n : String) :
    Thread.has_read t (stripDash n) = Thread.has_read t n ∧
    Thread.mark_read numbers t (stripDash n) = Thread.mark_read numbers t n ∧
    Thread.mark_unread numbers t (stripDash n) = Thread.mark_unread numbers t n := by
  refine ⟨?_, ?_, ?_⟩
  · unfold Thread.has_read
    rw [stripDash_idem]
  · unfold Thread.mark_read
    rw [stripDash_idem]
  · unfold Thread.mark_unread
    rw [stripDash_idem]

/-! Claim theorems: the `recipients` and `sent_ago` properties. -/

/-- C2: the `recipients` property of a `Text` yields exactly the
participant numbers of its owning thread minus the sender of the text;
in particular the sender is never among its own recipients. -/
theorem text_recipients_spec (db : Db) (t : Text) (th : Thread)
    (hth : findThread db t.threadId = some th) :
    (∀ x, x ∈ Text.recipients db t ↔ (x ∈ th.recipients ∧ x ≠ t.sender)) ∧
    t.sender ∉ Text.recipients db t := by
  have hrec : Text.recipients db t = th.recipients.filter (fun r => r ≠ t.sender) := by
    unfold Text.recipients
    rw [hth]
  constructor
  · intro x
    rw [hrec]
    simp [List.mem_filter]
  · rw [hrec]
    simp [List.mem_filter]

/-- Witness for C2 at a concrete store. -/
theorem text_recipients_spec_witness :
    ("5550001" : String) ∉ Text.recipients
      ⟨["5550001", "5550002"], [(0, ⟨"", ["5550001", "5550002"], []⟩)],
        [⟨"5550001", 0, "hi", 0⟩]⟩
      ⟨"5550001", 0, "hi", 0⟩ := by
  exact (text_recipients_spec
    ⟨["5550001", "5550002"], [(0, ⟨"", ["5550001", "5550002"], []⟩)],
      [⟨"5550001", 0, "hi", 0⟩]⟩
    ⟨"5550001", 0, "hi", 0⟩ ⟨"", ["5550001", "5550002"], []⟩ (by decide)).2

/-- C7: `sent_ago` renders the elapsed logical game time — current game
clock minus the sent timestamp — through the duration formatter, and the
result is that formatted duration followed by the literal suffix. -/
theorem sent_ago_spec (tf : Int → Nat → String) (now : Int) (t : Text) :
    ∃ s, Text.sent_ago tf now t = s ++ " ago" ∧ s = tf (now - t.dateSent) 4 :=
  ⟨tf (now - t.dateSent) 4, rfl, rfl⟩

/-! Claim theorems: the `send` screen command guards. -/

/-- C6: the `send` command reports an empty recipient list or empty
content to the user and returns without calling the core send operation,
so `Text.objects.send` is only reached with a non-empty recipient list
and non-empty content, passed through unchanged. -/
theorem cmd_send_guards (sender : String) (recipients : List String)
    (contentEntry : Option String) :
    (recipients = [] → cmdSendFunc sender recipients contentEntry = .noRecipients) ∧
    (recipients ≠ [] → contentEntry = some "" →
      cmdSendFunc sender recipients contentEntry = .emptyContent) ∧
    (∀ s' r' c', cmdSendFunc sender recipients contentEntry = .sent s' r' c' →
      s' = sender ∧ r' = recipients ∧ contentEntry = some c' ∧
      r' ≠ [] ∧ c' ≠ "") := by
  refine ⟨?_, ?_, ?_⟩
  · intro h
    subst h
    rfl
  · intro h hc
    subst hc
    rcases recipients with _ | ⟨r, rs⟩
    · exact absurd rfl h
    · simp [cmdSendFunc]
  · intro s' r' c' hsent
    unfold cmdSendFunc at hsent
    by_cases h : recipients.isEmpty
    · rw [if_pos h] at hsent
      cases hsent
    · rw [if_neg h] at hsent
      rcases contentEntry with _ | content
      · have hsent' : SendOutcome.keyErrorCrash = SendOutcome.sent s' r' c' := hsent
        cases hsent'
      · have hsent' : (if content = "" then SendOutcome.emptyContent
            else SendOutcome.sent sender recipients content)
            = SendOutcome.sent s' r' c' := hsent
        by_cases hc : content = ""
        · rw [if_pos hc] at hsent'
          cases hsent'
        · rw [if_neg hc] at hsent'
          cases hsent'
          refine ⟨rfl, rfl, rfl, ?_, hc⟩
          intro hnil
          exact h (by simp [hnil])

/-- Witness for C6 at a concrete invocation that reaches `send`. -/
theorem cmd_send_guards_witness :
    cmdSendFunc "5550001" ["5550002"] (some "hi") = .sent "5550001" ["5550002"] "hi" ∧
    (["5550002"] : List String) ≠ [] ∧ ("hi" : String) ≠ "" := by
  have h := (cmd_send_guards "5550001" ["5550002"] (some "hi")).2.2
    "5550001" ["5550002"] "hi" (by decide)
  exact ⟨by decide, h.2.2.2.1, h.2.2.2.2⟩

/-! Claim theorems: `latinify`. -/

/-- The character loop of `latinify` with the single-character default
replacement acts as a pointwise substitution: because every rewrite
preserves the length, indices into the current string stay aligned with
the characters enumerated from the original one. -/
lemma asciiPass_default (rest : List Char) : ∀ (i : Nat) (cur : List Char),
    cur.length = i + rest.length → cur.drop i = rest →
    asciiPass ['?'] rest i cur
      = cur.take i ++ rest.map (fun c => if 128 ≤ c.toNat then '?' else c) := by
  induction rest with
  | nil =>
      intro i cur hlen _hdrop
      have hle : cur.length ≤ i := by
        simp only [List.length_nil] at hlen
        omega
      simp only [asciiPass, List.map_nil, List.append_nil]
      exact (List.take_of_length_le hle).symm
  | cons c rest ih =>
      intro i cur hlen hdrop
      simp only [List.length_cons] at hlen
      have hi : i ≤ cur.length := by omega
      have hmin : (cur.take i).length = i := by
        simp [List.length_take]
        omega
      have hget : cur[i]? = some c := by
        have h0 : (cur.drop i)[0]? = cur[i + 0]? := List.getElem?_drop cur i 0
        rw [hdrop] at h0
        simpa using h0.symm
      have hdrop1 : cur.drop (i + 1) = rest := by
        have h1 : List.drop 1 (List.drop i cur) = List.drop (i + 1) cur :=
          List.drop_drop 1 i cur
        rw [hdrop] at h1
        simpa using h1.symm
      by_cases h128 : 128 ≤ c.toNat
      · have hstep : asciiPass ['?'] (c :: rest) i cur
            = asciiPass ['?'] rest (i + 1) (cur.take i ++ ['?'] ++ cur.drop (i + 1)) := by
          simp only [asciiPass, if_pos h128]
        rw [hstep, hdrop1]
        have hlen1 : ((cur.take i ++ ['?']).length) = i + 1 := by
          simp [hmin]
        have hcur' : cur.take i ++ ['?'] ++ rest = (cur.take i ++ ['?']) ++ rest := by
          simp [List.append_assoc]
        rw [hcur']
        have hlen2 : ((cur.take i ++ ['?']) ++ rest).length = (i + 1) + rest.length := by
          simp only [List.length_append, List.length_singleton, hmin]
        have hres := ih (i + 1) ((cur.take i ++ ['?']) ++ rest)
          hlen2
          (by rw [← hlen1]; exact List.drop_left _ _)
        rw [hres]
        have htake : ((cur.take i ++ ['?']) ++ rest).take (i + 1) = cur.take i ++ ['?'] := by
          rw [← hlen1]
          exact List.take_left _ _
        rw [htake]
        simp [if_pos h128, List.append_assoc]
      · have hstep : asciiPass ['?'] (c :: rest) i cur
            = asciiPass ['?'] rest (i + 1) cur := by
          simp only [asciiPass, if_neg h128]
        rw [hstep]
        have hres := ih (i + 1) cur (by omega) hdrop1
        rw [hres]
        have htake : cur.take (i + 1) = cur.take i ++ [c] := by
          rw [List.take_succ, hget]
          rfl
        rw [htake]
        simp [if_neg h128, List.append_assoc]

/-- With the default empty mapping and default replacement, `latinify`
substitutes every non-ASCII character by a question mark. -/
lemma latinify_default_eq (s : List Char) :
    latinify s = s.map (fun c => if 128 ≤ c.toNat then '?' else c) := by
  unfold latinify UNICODE_MAPPING
  simp only [List.foldl_nil]
  have h := asciiPass_default s 0 s (by simp) (by simp)
  simpa using h

/-- C10: with the default empty mapping and the default one-character
replacement, `latinify` preserves the length of its input, returns only
ASCII characters (code points below 128), and returns an already
all-ASCII input unchanged. -/
theorem latinify_ascii_spec (s : List Char) :
    (latinify s).length = s.length ∧
    (∀ c ∈ latinify s, c.toNat < 128) ∧
    ((∀ c ∈ s, c.toNat < 128) → latinify s = s) := by
  rw [latinify_default_eq]
  refine ⟨List.length_map _ _, ?_, ?_⟩
  · intro c hc
    obtain ⟨x, _, hx⟩ := List.mem_map.mp hc
    by_cases h : 128 ≤ x.toNat
    · rw [← hx, if_pos h]
      decide
    · rw [← hx, if_neg h]
      omega
  · intro hall
    have hcong : ∀ a ∈ s, (if 128 ≤ a.toNat then '?' else a) = a := by
      intro a ha
      rw [if_neg]
      have := hall a ha
      omega
    rw [List.map_congr_left hcong]
    exact List.map_id _

/-- Witness for C10: an all-ASCII input comes back unchanged. -/
theorem latinify_ascii_spec_witness : latinify ['a', 'b'] = ['a', 'b'] :=
  (latinify_ascii_spec ['a', 'b']).2.2 (by decide)

/-! Set-equality lemmas. -/

lemma setEq_refl (a : List String) : setEq a a := fun _ => Iff.rfl

lemma setEq_symm {a b : List String} (h : setEq a b) : setEq b a :=
  fun x => (h x).symm

lemma setEq_trans {a b c : List String} (h1 : setEq a b) (h2 : setEq b c) :
    setEq a c :=
  fun x => (h1 x).trans (h2 x)

/-- The boolean set-equality test decides the propositional one. -/
lemma sameSet_iff {a b : List String} : sameSet a b = true ↔ setEq a b := by
  unfold sameSet setEq
  rw [Bool.and_eq_true, List.all_eq_true, List.all_eq_true]
  constructor
  · rintro ⟨h1, h2⟩ x
    constructor
    · intro hx
      simpa using h1 x hx
    · intro hx
      simpa using h2 x hx
  · intro h
    constructor
    · intro x hx
      simpa using (h x).mp hx
    · intro x hx
      simpa using (h x).mpr hx

/-- A deduplicated list is set-equal to the original. -/
lemma setEq_dedup (a : List String) : setEq a.dedup a :=
  fun _ => List.mem_dedup

/-! Resolution lemmas. -/

/-- Hyphen stripping leaves no hyphen behind. -/
lemma stripDash_no_dash (s : String) : '-' ∉ (stripDash s).data := by
  unfold stripDash
  intro h
  have h2 := (List.mem_filter.mp h).2
  simp at h2

/-- Characterization of a successful `resolve_or_create`: the stored and
returned digit string is the stripped input, it is a valid 7-digit
number, and the `Number` table only grows, by at most that entry. -/
lemma resolve_ok {ns : List String} {raw : String} {ns' : List String} {n : String}
    (h : resolve_or_create ns raw = .ok (ns', n)) :
    n = stripDash raw ∧ Valid7 n ∧ (∀ x ∈ ns, x ∈ ns') ∧
    (∀ x ∈ ns', x ∈ ns ∨ x = n) := by
  unfold resolve_or_create at h
  by_cases hv : (pyIsDigit (stripDash raw) && (stripDash raw).data.length == 7) = true
  · rw [if_pos hv] at h
    rw [Bool.and_eq_true] at hv
    obtain ⟨hdig, hlen⟩ := hv
    have hvalid : Valid7 (stripDash raw) := by
      refine ⟨by simpa using hlen, ?_, stripDash_no_dash raw⟩
      intro c hc
      unfold pyIsDigit at hdig
      rw [Bool.and_eq_true, List.all_eq_true] at hdig
      simpa using hdig.2 c hc
    by_cases hc : ns.contains (stripDash raw)
    · rw [if_pos hc] at h
      injection h with h'
      injection h' with h1 h2
      subst h1
      subst h2
      exact ⟨rfl, hvalid, fun x hx => hx, fun x hx => Or.inl hx⟩
    · rw [if_neg hc] at h
      injection h with h'
      injection h' with h1 h2
      subst h1
      subst h2
      refine ⟨rfl, hvalid, fun x hx => List.mem_append_left _ hx, ?_⟩
      intro x hx
      rcases List.mem_append.mp hx with hx | hx
      · exact Or.inl hx
      · exact Or.inr (by simpa using hx)
  · rw [if_neg hv] at h
    cases h

/-- Characterization of a successful `resolveAll`: the resolved list is
the hyphen-stripped input, every resolved entry is valid, and the
`Number` table only grows, by entries of the resolved list. -/
lemma resolveAll_ok {l : List String} : ∀ {ns ns' : List String} {l' : List String},
    resolveAll ns l = .ok (ns', l') →
    l' = l.map stripDash ∧ (∀ x ∈ l', Valid7 x) ∧ (∀ x ∈ ns, x ∈ ns') ∧
    (∀ x ∈ ns', x ∈ ns ∨ x ∈ l') := by
  induction l with
  | nil =>
      intro ns ns' l' h
      unfold resolveAll at h
      injection h with h'
      injection h' with h1 h2
      subst h1
      subst h2
      exact ⟨rfl, by simp, fun x hx => hx, fun x hx => Or.inl hx⟩
  | cons r rest ih =>
      intro ns ns' l' h
      unfold resolveAll at h
      rcases hr : resolve_or_create ns r with e | ⟨ns1, n⟩ <;> rw [hr] at h
      · cases h
      · have h2 : (match resolveAll ns1 rest with
            | Except.error e => Except.error e
            | Except.ok (ns', rest') =>
                (Except.ok (ns', n :: rest') : Except Err (List String × List String)))
            = Except.ok (ns', l') := h
        rcases hrest : resolveAll ns1 rest with e | ⟨ns2, rest'⟩ <;> rw [hrest] at h2
        · cases h2
        · have h3 : (Except.ok (ns2, n :: rest')
              : Except Err (List String × List String)) = Except.ok (ns', l') := h2
          injection h3 with h'
          injection h' with h1 hl
          subst h1
          subst hl
          obtain ⟨hn, hnv, hgrow1, hnew1⟩ := resolve_ok hr
          obtain ⟨hrest', hrv, hgrow2, hnew2⟩ := ih hrest
          refine ⟨by rw [hrest', hn]; rfl, ?_, ?_, ?_⟩
          · intro x hx
            rcases List.mem_cons.mp hx with rfl | hx
            · exact hnv
            · exact hrv x hx
          · intro x hx
            exact hgrow2 x (hgrow1 x hx)
          · intro x hx
            rcases hnew2 x hx with hx1 | hx1
            · rcases hnew1 x hx1 with hx2 | hx2
              · exact Or.inl hx2
              · exact Or.inr (List.mem_cons.mpr (Or.inl hx2))
            · exact Or.inr (List.mem_cons.mpr (Or.inr hx1))

/-! Thread-table lemmas. -/

/-- With distinct row ids, searching by id finds the member row. -/
lemma find?_fst {l : List (Nat × Thread)} {tid : Nat} {th : Thread}
    (hnd : (l.map Prod.fst).Nodup) (hmem : (tid, th) ∈ l) :
    l.find? (fun p => p.1 == tid) = some (tid, th) := by
  induction l with
  | nil => cases hmem
  | cons q l ih =>
      rw [List.map_cons, List.nodup_cons] at hnd
      by_cases hq : q.1 = tid
      · have hq' : q = (tid, th) := by
          rcases List.mem_cons.mp hmem with h | h
          · exact h.symm
          · exfalso
            apply hnd.1
            rw [hq]
            exact List.mem_map.mpr ⟨(tid, th), h, rfl⟩
        subst hq'
        simp [List.find?_cons]
      · have hmem' : (tid, th) ∈ l := by
          rcases List.mem_cons.mp hmem with h | h
          · exact absurd (congrArg Prod.fst h.symm) hq
          · exact h
        have hqb : (q.1 == tid) = false := by
          simpa using hq
        simp [List.find?_cons, hqb, ih hnd.2 hmem']

/-- With distinct row ids, a row id determines the row. -/
lemma row_unique {l : List (Nat × Thread)} {tid : Nat} {a b : Thread}
    (hnd : (l.map Prod.fst).Nodup) (ha : (tid, a) ∈ l) (hb : (tid, b) ∈ l) :
    a = b := by
  have h1 := find?_fst hnd ha
  have h2 := find?_fst hnd hb
  rw [h1] at h2
  simpa using h2

/-- Replacing a row by id rewrites exactly the member row, when row ids
are distinct. -/
lemma updateThread_decomp {l : List (Nat × Thread)} {tid : Nat} {th : Thread}
    (th' : Thread) (hnd : (l.map Prod.fst).Nodup) (hmem : (tid, th) ∈ l) :
    ∃ l1 l2, l = l1 ++ (tid, th) :: l2 ∧
      updateThread l tid th' = l1 ++ (tid, th') :: l2 ∧
      (∀ p ∈ l1, p.1 ≠ tid) ∧ (∀ p ∈ l2, p.1 ≠ tid) := by
  induction l with
  | nil => cases hmem
  | cons q l ih =>
      rw [List.map_cons, List.nodup_cons] at hnd
      have hnotin : ∀ p ∈ l, p.1 ≠ tid → True := fun _ _ _ => trivial
      by_cases hq : q.1 = tid
      · have hq' : q = (tid, th) := by
          rcases List.mem_cons.mp hmem with h | h
          · exact h.symm
          · exfalso
            apply hnd.1
            rw [hq]
            exact List.mem_map.mpr ⟨(tid, th), h, rfl⟩
        subst hq'
        refine ⟨[], l, by simp, ?_, by simp, ?_⟩
        · unfold updateThread
          rw [List.map_cons, if_pos rfl]
          have hcong : ∀ p ∈ l, (if p.1 = tid then (tid, th') else p) = p := by
            intro p hp
            have hp1 : p.1 ≠ tid := by
              intro hp1
              exact hnd.1 (hp1 ▸ List.mem_map.mpr ⟨p, hp, rfl⟩)
            rw [if_neg hp1]
          have hid : List.map (fun a : Nat × Thread => a) l = l := List.map_id l
          rw [List.map_congr_left hcong, hid]
          rfl
        · intro p hp hp1
          exact hnd.1 (hp1 ▸ List.mem_map.mpr ⟨p, hp, rfl⟩)
      · have hmem' : (tid, th) ∈ l := by
          rcases List.mem_cons.mp hmem with h | h
          · exact absurd (congrArg Prod.fst h.symm) hq
          · exact h
        obtain ⟨l1, l2, heq, hupd, h1, h2⟩ := ih hnd.2 hmem'
        refine ⟨q :: l1, l2, by rw [heq]; rfl, ?_, ?_, h2⟩
        · unfold updateThread at hupd ⊢
          rw [List.map_cons, if_neg hq, hupd]
          rfl
        · intro p hp
          rcases List.mem_cons.mp hp with h | h
          · exact h ▸ hq
          · exact h1 p h

/-- Every row id is below the fresh id. -/
lemma lt_freshId {l : List (Nat × Thread)} : ∀ p ∈ l, p.1 < freshId l := by
  induction l with
  | nil => intro p hp; cases hp
  | cons q l ih =>
      intro p hp
      unfold freshId
      rcases List.mem_cons.mp hp with h | h
      · subst h
        simp only [List.foldr_cons]
        omega
      · have := ih p h
        unfold freshId at this
        simp only [List.foldr_cons]
        omega

/-- The fresh id is not a row id. -/
lemma freshId_not_mem {l : List (Nat × Thread)} : freshId l ∉ l.map Prod.fst := by
  intro h
  obtain ⟨p, hp, hp1⟩ := List.mem_map.mp h
  exact absurd hp1 (Nat.ne_of_lt (lt_freshId p hp))

/-- Replacing one element of a pairwise list preserves pairwiseness when
the replacement relates exactly as the original does. -/
lemma pairwise_replace {R : (Nat × Thread) → (Nat × Thread) → Prop}
    {l1 l2 : List (Nat × Thread)} {a a' : Nat × Thread}
    (hR1 : ∀ x, R x a → R x a') (hR2 : ∀ x, R a x → R a' x)
    (h : (l1 ++ a :: l2).Pairwise R) : (l1 ++ a' :: l2).Pairwise R := by
  rw [List.pairwise_append] at h ⊢
  obtain ⟨h1, h2, h12⟩ := h
  rw [List.pairwise_cons] at h2 ⊢
  refine ⟨h1, ⟨fun b hb => hR2 b (h2.1 b hb), h2.2⟩, ?_⟩
  intro x hx b hb
  rcases List.mem_cons.mp hb with rfl | hb2
  · exact hR1 x (h12 x hx a (List.mem_cons_self a _))
  · exact h12 x hx b (List.mem_cons.mpr (Or.inr hb2))

/-! The reachable-state invariant. -/

/-- Invariant of every reachable store: thread row ids are distinct,
participant sets identify threads uniquely, every text points at a thread
row containing its sender, read markers only name stored numbers, and
every stored number is a valid 7-digit string. -/
structure Inv (db : Db) : Prop where
  nodupIds : (db.threads.map Prod.fst).Nodup
  uniqueSets : db.threads.Pairwise (fun p q => ¬ setEq p.2.recipients q.2.recipients)
  textThread : ∀ t ∈ db.texts,
    ∃ th, (t.threadId, th) ∈ db.threads ∧ t.sender ∈ th.recipients
  readStored : ∀ p ∈ db.threads, ∀ x ∈ p.2.read, x ∈ db.numbers
  numbersValid : ∀ n ∈ db.numbers, Valid7 n

/-- The empty store satisfies the invariant. -/
lemma inv_empty : Inv emptyDb := by
  refine ⟨?_, ?_, ?_, ?_, ?_⟩ <;> simp [emptyDb]

/-- Case analysis of a successful `send`: the text row is appended and
built from the stripped sender; the `Number` table only grows, by valid
entries; and the thread of the text either is an existing row whose
participant set equals that of the call (written back with read markers
of the other recipients removed), or is a fresh nameless row holding
exactly the participant set of the call. -/
lemma send_cases {db : Db} {clock : Int} {sender : String} {rcpts : List String}
    {content : String} {db' : Db} {t : Text}
    (h : send db clock sender rcpts content = .ok (db', t)) :
    ∃ s rs tid,
      s = stripDash sender ∧ rs = rcpts.map stripDash ∧ Valid7 s ∧
      (∀ x ∈ rs, Valid7 x) ∧
      t = ⟨s, clock, content, tid⟩ ∧
      db'.texts = db.texts ++ [t] ∧
      (∀ x ∈ db.numbers, x ∈ db'.numbers) ∧
      (∀ x ∈ db'.numbers, x ∈ db.numbers ∨ Valid7 x) ∧
      ((∃ th, (tid, th) ∈ db.threads ∧ setEq th.recipients (s :: rs) ∧
          db'.threads = updateThread db.threads tid
            { th with read := th.read.filter (fun x => !(rs.filter (fun r => r ≠ s)).contains x) }) ∨
        (findThreadBySet db.threads ((s :: rs).dedup) = none ∧
          tid = freshId db.threads ∧
          db'.threads = db.threads ++ [(tid, ⟨"", (s :: rs).dedup, []⟩)])) := by
  unfold send at h
  split at h
  · cases h
  · rename_i ns1 s hres
    obtain ⟨hs, hsv, hgrow1, hnew1⟩ := resolve_ok hres
    split at h
    · cases h
    · rename_i ns2 rs hall
      obtain ⟨hrs, hrsv, hgrow2, hnew2⟩ := resolveAll_ok hall
      have hnumbers : ∀ x ∈ db.numbers, x ∈ ns2 := fun x hx => hgrow2 x (hgrow1 x hx)
      have hnew : ∀ x ∈ ns2, x ∈ db.numbers ∨ Valid7 x := by
        intro x hx
        rcases hnew2 x hx with hx1 | hx1
        · rcases hnew1 x hx1 with hx2 | hx2
          · exact Or.inl hx2
          · exact Or.inr (hx2 ▸ hsv)
        · exact Or.inr (hrsv x hx1)
      split at h
      · rename_i tid th hf
        injection h with h5
        injection h5 with hdb ht
        subst hdb
        subst ht
        have hmem : (tid, th) ∈ db.threads := List.mem_of_find?_eq_some hf
        have hsame : sameSet th.recipients ((s :: rs).dedup) = true := by
          have h6 := List.find?_some hf
          simpa using h6
        have hseq : setEq th.recipients (s :: rs) :=
          setEq_trans (sameSet_iff.mp hsame) (setEq_dedup (s :: rs))
        exact ⟨s, rs, tid, hs, hrs, hsv, hrsv, rfl, rfl, hnumbers, hnew,
          Or.inl ⟨th, hmem, hseq, rfl⟩⟩
      · rename_i hf
        injection h with h5
        injection h5 with hdb ht
        subst hdb
        subst ht
        exact ⟨s, rs, freshId db.threads, hs, hrs, hsv, hrsv, rfl, rfl,
          hnumbers, hnew, Or.inr ⟨hf, rfl, rfl⟩⟩

/-- Membership in a list with one element replaced. -/
lemma mem_replace_or {l1 l2 : List (Nat × Thread)} (a' : Nat × Thread)
    {a q : Nat × Thread}
    (hq : q ∈ l1 ++ a :: l2) : q ∈ l1 ++ a' :: l2 ∨ q = a := by
  rcases List.mem_append.mp hq with h | h
  · exact Or.inl (List.mem_append_left _ h)
  · rcases List.mem_cons.mp h with h | h
    · exact Or.inr h
    · exact Or.inl (List.mem_append_right _ (List.mem_cons.mpr (Or.inr h)))

/-- A successful thread dereference exposes a member row. -/
lemma findThread_mem {db : Db} {tid : Nat} {t : Thread}
    (h : findThread db tid = some t) : (tid, t) ∈ db.threads := by
  unfold findThread at h
  rcases hfind : db.threads.find? (fun p => p.1 == tid) with _ | p <;>
    rw [hfind] at h
  · cases h
  · injection h with h2
    have hp := List.find?_some hfind
    have hmem := List.mem_of_find?_eq_some hfind
    cases p with
    | mk a b =>
        have hp1 : a = tid := by simpa using hp
        subst hp1
        subst h2
        exact hmem

/-- Writing back one thread row with unchanged participants and read
markers drawn from the old markers or the stored numbers preserves the
invariant. -/
lemma inv_update {db : Db} {tid : Nat} {th th' : Thread}
    (hinv : Inv db) (hmem : (tid, th) ∈ db.threads)
    (hrec : th'.recipients = th.recipients)
    (hread : ∀ x ∈ th'.read, x ∈ th.read ∨ x ∈ db.numbers) :
    Inv { db with threads := updateThread db.threads tid th' } := by
  obtain ⟨l1, l2, heq, hupd, hl1, hl2⟩ := updateThread_decomp th' hinv.nodupIds hmem
  have hmaps : (l1 ++ (tid, th') :: l2).map Prod.fst
      = (l1 ++ (tid, th) :: l2).map Prod.fst := by
    simp
  refine ⟨?_, ?_, ?_, ?_, ?_⟩
  · show ((updateThread db.threads tid th').map Prod.fst).Nodup
    rw [hupd, hmaps, ← heq]
    exact hinv.nodupIds
  · show (updateThread db.threads tid th').Pairwise _
    rw [hupd]
    refine pairwise_replace ?_ ?_ (heq ▸ hinv.uniqueSets)
    · intro x hx
      simpa [hrec] using hx
    · intro x hx
      simpa [hrec] using hx
  · intro t0 ht0
    obtain ⟨th0, hmem0, hs0⟩ := hinv.textThread t0 ht0
    rw [heq] at hmem0
    rcases mem_replace_or (tid, th') hmem0 with h | h
    · exact ⟨th0, by rw [hupd] at *; exact h, hs0⟩
    · refine ⟨th', ?_, ?_⟩
      · rw [hupd]
        have h1 : t0.threadId = tid := congrArg Prod.fst h
        rw [h1]
        exact List.mem_append_right _ (List.mem_cons_self _ _)
      · have h2 : th0 = th := by
          have := congrArg Prod.snd h
          simpa using this
        rw [hrec, ← h2]
        exact hs0
  · intro p hp x hx
    rw [hupd] at hp
    rcases mem_replace_or (tid, th) hp with h | h
    · rw [← heq] at h
      exact hinv.readStored p h x hx
    · have h2 : p.2 = th' := by
        have := congrArg Prod.snd h
        simpa using this
      rw [h2] at hx
      rcases hread x hx with h3 | h3
      · exact hinv.readStored (tid, th) (heq ▸ List.mem_append_right _
          (List.mem_cons_self _ _)) x h3
      · exact h3
  · exact hinv.numbersValid

/-- `Db.markRead` preserves the invariant. -/
lemma inv_markRead {db : Db} {tid : Nat} {n : String} {db' : Db}
    (hinv : Inv db) (h : Db.markRead db tid n = .ok db') : Inv db' := by
  unfold Db.markRead at h
  split at h
  · cases h
  · rename_i t hft
    unfold Thread.mark_read at h
    split at h
    · rename_i m hfm
      have hm : m = stripDash n := by simpa using List.find?_some hfm
      have hmmem : m ∈ db.numbers := List.mem_of_find?_eq_some hfm
      have h2 : Except.ok { db with threads := updateThread db.threads tid { t with read := if t.read.contains m then t.read else m :: t.read } }
          = (Except.ok db' : Except Err Db) := h
      injection h2 with h3
      subst h3
      refine inv_update hinv (findThread_mem hft) rfl ?_
      intro x hx
      by_cases hc : t.read.contains m
      · rw [if_pos hc] at hx
        exact Or.inl hx
      · rw [if_neg hc] at hx
        rcases List.mem_cons.mp hx with h4 | h4
        · exact Or.inr (h4 ▸ hmmem)
        · exact Or.inl h4
    · cases h

/-- `Db.markUnread` preserves the invariant. -/
lemma inv_markUnread {db : Db} {tid : Nat} {n : String} {db' : Db}
    (hinv : Inv db) (h : Db.markUnread db tid n = .ok db') : Inv db' := by
  unfold Db.markUnread at h
  split at h
  · cases h
  · rename_i t hft
    unfold Thread.mark_unread at h
    split at h
    · rename_i m hfm
      have h2 : Except.ok { db with threads := updateThread db.threads tid { t with read := t.read.filter (fun x => x ≠ m) } }
          = (Except.ok db' : Except Err Db) := h
      injection h2 with h3
      subst h3
      refine inv_update hinv (findThread_mem hft) rfl ?_
      intro x hx
      exact Or.inl (List.mem_filter.mp hx).1
    · cases h

/-- `send` preserves the invariant. -/
lemma inv_send {db : Db} {clock : Int} {sender : String} {rcpts : List String}
    {content : String} {db' : Db} {t : Text}
    (hinv : Inv db) (h : send db clock sender rcpts content = .ok (db', t)) :
    Inv db' := by
  obtain ⟨s, rs, tid, hs, hrs, hsv, hrsv, ht, htexts, hgrow, hnew, hcase⟩ :=
    send_cases h
  rcases hcase with ⟨th, hmem, hseq, hthreads⟩ | ⟨hf, htid, hthreads⟩
  · obtain ⟨l1, l2, heq, hupd, hl1, hl2⟩ := updateThread_decomp
      { th with read := th.read.filter (fun x => !(rs.filter (fun r => r ≠ s)).contains x) }
      hinv.nodupIds hmem
    rw [hupd] at hthreads
    refine ⟨?_, ?_, ?_, ?_, ?_⟩
    · rw [hthreads]
      have hmaps : (l1 ++ ((tid, { th with read := th.read.filter (fun x => !(rs.filter (fun r => r ≠ s)).contains x) }) : Nat × Thread) :: l2).map Prod.fst
          = (l1 ++ (tid, th) :: l2).map Prod.fst := by
        simp
      rw [hmaps, ← heq]
      exact hinv.nodupIds
    · rw [hthreads]
      refine pairwise_replace ?_ ?_ (heq ▸ hinv.uniqueSets)
      · intro x hx
        simpa using hx
      · intro x hx
        simpa using hx
    · intro t0 ht0
      rw [htexts] at ht0
      rcases List.mem_append.mp ht0 with h0 | h0
      · obtain ⟨th0, hmem0, hs0⟩ := hinv.textThread t0 h0
        rw [heq] at hmem0
        rcases mem_replace_or
            (((tid, { th with read := th.read.filter (fun x => !(rs.filter (fun r => r ≠ s)).contains x) }) : Nat × Thread)) hmem0 with h1 | h1
        · exact ⟨th0, hthreads ▸ h1, hs0⟩
        · refine ⟨{ th with read := th.read.filter (fun x => !(rs.filter (fun r => r ≠ s)).contains x) }, ?_, ?_⟩
          · rw [hthreads]
            have h2 : t0.threadId = tid := congrArg Prod.fst h1
            rw [h2]
            exact List.mem_append_right _ (List.mem_cons_self _ _)
          · have h3 : th0 = th := by
              have := congrArg Prod.snd h1
              simpa using this
            show t0.sender ∈ th.recipients
            rw [← h3]
            exact hs0
      · have h1 : t0 = t := by simpa using h0
        subst h1
        refine ⟨{ th with read := th.read.filter (fun x => !(rs.filter (fun r => r ≠ s)).contains x) }, ?_, ?_⟩
        · rw [hthreads, ht]
          exact List.mem_append_right _ (List.mem_cons_self _ _)
        · show t0.sender ∈ th.recipients
          rw [ht]
          exact (hseq s).mpr (List.mem_cons_self _ _)
    · intro p hp x hx
      rw [hthreads] at hp
      rcases mem_replace_or (tid, th) hp with h1 | h1
      · rw [← heq] at h1
        exact hgrow x (hinv.readStored p h1 x hx)
      · have h2 : p.2 = { th with read := th.read.filter (fun x => !(rs.filter (fun r => r ≠ s)).contains x) } := by
          have := congrArg Prod.snd h1
          simpa using this
        rw [h2] at hx
        have h3 : x ∈ th.read := (List.mem_filter.mp hx).1
        exact hgrow x (hinv.readStored (tid, th) hmem x h3)
    · intro x hx
      rcases hnew x hx with h1 | h1
      · exact hinv.numbersValid x h1
      · exact h1
  · subst htid
    refine ⟨?_, ?_, ?_, ?_, ?_⟩
    · rw [hthreads]
      rw [List.map_append, List.nodup_append]
      refine ⟨hinv.nodupIds, by simp, ?_⟩
      intro a ha hb
      simp only [List.map_cons, List.map_nil, List.mem_singleton] at hb
      subst hb
      exact freshId_not_mem ha
    · rw [hthreads]
      rw [List.pairwise_append]
      refine ⟨hinv.uniqueSets, by simp, ?_⟩
      intro p hp b hb
      have hb1 : b = ((freshId db.threads, ⟨"", (s :: rs).dedup, []⟩) : Nat × Thread) := by
        simpa using hb
      subst hb1
      intro hcontra
      unfold findThreadBySet at hf
      have h1 := List.find?_eq_none.mp hf p hp
      apply h1
      exact sameSet_iff.mpr hcontra
    · intro t0 ht0
      rw [htexts] at ht0
      rcases List.mem_append.mp ht0 with h0 | h0
      · obtain ⟨th0, hmem0, hs0⟩ := hinv.textThread t0 h0
        exact ⟨th0, hthreads ▸ List.mem_append_left _ hmem0, hs0⟩
      · have h1 : t0 = t := by simpa using h0
        subst h1
        refine ⟨⟨"", (s :: rs).dedup, []⟩, ?_, ?_⟩
        · rw [hthreads, ht]
          exact List.mem_append_right _ (List.mem_cons_self _ _)
        · show t0.sender ∈ ((s :: rs).dedup)
          rw [ht]
          exact List.mem_dedup.mpr (List.mem_cons_self _ _)
    · intro p hp x hx
      rw [hthreads] at hp
      rcases List.mem_append.mp hp with h1 | h1
      · exact hgrow x (hinv.readStored p h1 x hx)
      · have h2 : p = ((freshId db.threads, ⟨"", (s :: rs).dedup, []⟩) : Nat × Thread) := by
          simpa using h1
        subst h2
        simp at hx
    · intro x hx
      rcases hnew x hx with h1 | h1
      · exact hinv.numbersValid x h1
      · exact h1

/-- Every reachable store satisfies the invariant. -/
lemma reachable_inv {db : Db} (h : Reachable db) : Inv db := by
  induction h with
  | init => exact inv_empty
  | send _ hs ih => exact inv_send ih hs
  | markRead _ hm ih => exact inv_markRead ih hm
  | markUnread _ hm ih => exact inv_markUnread ih hm

/-- Under the invariant, the participant set of a text equals the
participant set of its thread row. -/
lemma participants_thread {db : Db} (hinv : Inv db) {t : Text}
    (ht : t ∈ db.texts) :
    ∃ th, (t.threadId, th) ∈ db.threads ∧
      setEq (participantsOf db t) th.recipients := by
  obtain ⟨th, hmem, hsend⟩ := hinv.textThread t ht
  have hf : findThread db t.threadId = some th := by
    unfold findThread
    rw [find?_fst hinv.nodupIds hmem]
    rfl
  refine ⟨th, hmem, ?_⟩
  intro x
  unfold participantsOf Text.recipients
  rw [hf]
  constructor
  · intro hx
    rcases List.mem_cons.mp hx with h1 | h1
    · exact h1 ▸ hsend
    · exact (List.mem_filter.mp h1).1
  · intro hx
    by_cases hxs : x = t.sender
    · exact List.mem_cons.mpr (Or.inl hxs)
    · refine List.mem_cons.mpr (Or.inr (List.mem_filter.mpr ⟨hx, ?_⟩))
      simpa using hxs

/-- Under the invariant, two texts share a thread row exactly when their
participant sets agree. -/
lemma thread_identity_inv {db : Db} (hinv : Inv db) {t1 t2 : Text}
    (ht1 : t1 ∈ db.texts) (ht2 : t2 ∈ db.texts) :
    t1.threadId = t2.threadId ↔
      setEq (participantsOf db t1) (participantsOf db t2) := by
  obtain ⟨th1, hm1, hseq1⟩ := participants_thread hinv ht1
  obtain ⟨th2, hm2, hseq2⟩ := participants_thread hinv ht2
  constructor
  · intro heq
    have hth : th1 = th2 := row_unique hinv.nodupIds (heq ▸ hm1) hm2
    exact setEq_trans hseq1 (hth ▸ setEq_symm hseq2)
  · intro hpp
    by_contra hne
    have hpairne : ((t1.threadId, th1) : Nat × Thread) ≠ (t2.threadId, th2) := by
      intro hcontra
      exact hne (congrArg Prod.fst hcontra)
    have hSymm : Symmetric
        (fun p q : Nat × Thread => ¬ setEq p.2.recipients q.2.recipients) := by
      intro a b hab hc
      exact hab (setEq_symm hc)
    have hnotset := hinv.uniqueSets.forall hSymm hm1 hm2 hpairne
    exact hnotset (setEq_trans (setEq_symm hseq1) (setEq_trans hpp hseq2))

/-- `send` keeps every existing thread row, with unchanged participants. -/
lemma send_thread_rows {db : Db} {clock : Int} {sender : String}
    {rcpts : List String} {content : String} {db' : Db} {t : Text}
    (hinv : Inv db) (h : send db clock sender rcpts content = .ok (db', t)) :
    ∀ tid th, (tid, th) ∈ db.threads →
      ∃ th', (tid, th') ∈ db'.threads ∧ th'.recipients = th.recipients := by
  obtain ⟨s, rs, tidN, hs, hrs, _, _, ht, htexts, hgrow, hnew, hcase⟩ :=
    send_cases h
  rcases hcase with ⟨th1, hmem1, hseq1, hthreads⟩ | ⟨hf, htid, hthreads⟩
  · obtain ⟨l1, l2, heq, hupd, hl1, hl2⟩ := updateThread_decomp
      { th1 with read := th1.read.filter (fun x => !(rs.filter (fun r => r ≠ s)).contains x) }
      hinv.nodupIds hmem1
    rw [hupd] at hthreads
    intro tid th hmem
    rw [heq] at hmem
    rcases mem_replace_or
        (((tidN, { th1 with read := th1.read.filter (fun x => !(rs.filter (fun r => r ≠ s)).contains x) }) : Nat × Thread)) hmem with h1 | h1
    · exact ⟨th, hthreads ▸ h1, rfl⟩
    · have h2 : tid = tidN := congrArg Prod.fst h1
      have h3 : th = th1 := by
        have := congrArg Prod.snd h1
        simpa using this
      subst h2
      subst h3
      refine ⟨{ th with read := th.read.filter (fun x => !(rs.filter (fun r => r ≠ s)).contains x) }, ?_, rfl⟩
      rw [hthreads]
      exact List.mem_append_right _ (List.mem_cons_self _ _)
  · intro tid th hmem
    exact ⟨th, hthreads ▸ List.mem_append_left _ hmem, rfl⟩

/-- `send` leaves the participant set of every pre-existing text
unchanged. -/
lemma send_preserves_participantsOf {db : Db} {clock : Int} {sender : String}
    {rcpts : List String} {content : String} {db' : Db} {t : Text}
    (hinv : Inv db) (h : send db clock sender rcpts content = .ok (db', t))
    {t0 : Text} (ht0 : t0 ∈ db.texts) :
    participantsOf db' t0 = participantsOf db t0 := by
  have hinv' := inv_send hinv h
  obtain ⟨th0, hmem0, _⟩ := hinv.textThread t0 ht0
  obtain ⟨th0', hmem0', hrec⟩ := send_thread_rows hinv h t0.threadId th0 hmem0
  have hf1 : findThread db t0.threadId = some th0 := by
    unfold findThread
    rw [find?_fst hinv.nodupIds hmem0]
    rfl
  have hf2 : findThread db' t0.threadId = some th0' := by
    unfold findThread
    rw [find?_fst hinv'.nodupIds hmem0']
    rfl
  unfold participantsOf Text.recipients
  rw [hf1, hf2]
  show t0.sender :: th0'.recipients.filter (fun r => r ≠ t0.sender)
      = t0.sender :: th0.recipients.filter (fun r => r ≠ t0.sender)
  rw [hrec]

/-- The text just created by `send` carries the participant set of the
call, and is stored. -/
lemma send_text_participants {db : Db} {clock : Int} {sender : String}
    {rcpts : List String} {content : String} {db' : Db} {t : Text}
    (hinv : Inv db) (h : send db clock sender rcpts content = .ok (db', t)) :
    setEq (participantsOf db' t) (stripDash sender :: rcpts.map stripDash) ∧
      t ∈ db'.texts ∧ db'.texts = db.texts ++ [t] := by
  have hinv' := inv_send hinv h
  obtain ⟨s, rs, tid, hs, hrs, _, _, ht, htexts, hgrow, hnew, hcase⟩ :=
    send_cases h
  have htmem : t ∈ db'.texts := by
    rw [htexts]
    exact List.mem_append_right _ (List.mem_cons_self _ _)
  obtain ⟨th0, hmem0, hseq0⟩ := participants_thread hinv' htmem
  subst hs
  subst hrs
  refine ⟨?_, htmem, htexts⟩
  rcases hcase with ⟨th1, hmem1, hseq1, hthreads⟩ | ⟨hf, htid, hthreads⟩
  · obtain ⟨l1, l2, heq, hupd, hl1, hl2⟩ := updateThread_decomp
      { th1 with read := th1.read.filter (fun x => !((rcpts.map stripDash).filter (fun r => r ≠ stripDash sender)).contains x) }
      hinv.nodupIds hmem1
    rw [hupd] at hthreads
    have hmem1' : ((tid, { th1 with read := th1.read.filter (fun x => !((rcpts.map stripDash).filter (fun r => r ≠ stripDash sender)).contains x) }) : Nat × Thread) ∈ db'.threads := by
      rw [hthreads]
      exact List.mem_append_right _ (List.mem_cons_self _ _)
    have htid0 : t.threadId = tid := by rw [ht]
    have hth0 : th0 = { th1 with read := th1.read.filter (fun x => !((rcpts.map stripDash).filter (fun r => r ≠ stripDash sender)).contains x) } :=
      row_unique hinv'.nodupIds (htid0 ▸ hmem0) hmem1'
    refine setEq_trans hseq0 ?_
    rw [hth0]
    exact hseq1
  · have hmem1' : ((tid, (⟨"", (stripDash sender :: rcpts.map stripDash).dedup, []⟩ : Thread)) : Nat × Thread) ∈ db'.threads := by
      rw [hthreads]
      exact List.mem_append_right _ (List.mem_cons_self _ _)
    have htid0 : t.threadId = tid := by rw [ht]
    have hth0 : th0 = (⟨"", (stripDash sender :: rcpts.map stripDash).dedup, []⟩ : Thread) :=
      row_unique hinv'.nodupIds (htid0 ▸ hmem0) hmem1'
    refine setEq_trans hseq0 ?_
    rw [hth0]
    exact setEq_dedup _

/-! Claim theorems: thread identity, stored numbers, total has_read. -/

/-- C1: in every reachable store, two texts belong to the same thread
exactly when their participant sets (sender together with recipients,
compared as sets) coincide; hence two consecutive sends with set-equal
participant sets, run without interleaving, place both texts in one
single thread. -/
theorem thread_identity_spec :
    (∀ db, Reachable db → ∀ t1 ∈ db.texts, ∀ t2 ∈ db.texts,
      (t1.threadId = t2.threadId ↔
        setEq (participantsOf db t1) (participantsOf db t2))) ∧
    (∀ db clock1 s1 r1 c1 db1 t1 clock2 s2 r2 c2 db2 t2, Reachable db →
      send db clock1 s1 r1 c1 = .ok (db1, t1) →
      send db1 clock2 s2 r2 c2 = .ok (db2, t2) →
      setEq (stripDash s1 :: r1.map stripDash)
        (stripDash s2 :: r2.map stripDash) →
      t1.threadId = t2.threadId) := by
  constructor
  · intro db hr t1 ht1 t2 ht2
    exact thread_identity_inv (reachable_inv hr) ht1 ht2
  · intro db clock1 s1 r1 c1 db1 t1 clock2 s2 r2 c2 db2 t2 hr h1 h2 hset
    have hinv := reachable_inv hr
    have hinv1 := inv_send hinv h1
    have hinv2 := inv_send hinv1 h2
    obtain ⟨hp1, hm1, _⟩ := send_text_participants hinv h1
    obtain ⟨hp2, hm2, htexts2⟩ := send_text_participants hinv1 h2
    have hm1' : t1 ∈ db2.texts := by
      rw [htexts2]
      exact List.mem_append_left _ hm1
    have hpres := send_preserves_participantsOf hinv1 h2 hm1
    apply (thread_identity_inv hinv2 hm1' hm2).mpr
    rw [hpres]
    exact setEq_trans hp1 (setEq_trans hset (setEq_symm hp2))

/-- Witness for C1: a send and its reciprocal reply share the thread. -/
theorem thread_identity_spec_witness :
    (⟨"5550001", 0, "hi", 0⟩ : Text).threadId
      = (⟨"5550002", 1, "hey", 0⟩ : Text).threadId := by
  exact thread_identity_spec.2 emptyDb 0 "5550001" ["5550002"] "hi"
    ⟨["5550001", "5550002"], [(0, ⟨"", ["5550001", "5550002"], []⟩)],
      [⟨"5550001", 0, "hi", 0⟩]⟩
    ⟨"5550001", 0, "hi", 0⟩ 1 "5550002" ["5550001"] "hey"
    ⟨["5550001", "5550002"], [(0, ⟨"", ["5550001", "5550002"], []⟩)],
      [⟨"5550001", 0, "hi", 0⟩, ⟨"5550002", 1, "hey", 0⟩]⟩
    ⟨"5550002", 1, "hey", 0⟩ Reachable.init rfl rfl (sameSet_iff.mp (by decide))

/-- C5: every number stored in a reachable store is exactly 7 digit
characters with no hyphen; `resolve_or_create` stores the stripped form
of its input, and the `to` command strips hyphens before validating and
records only the stripped 7-digit form. -/
theorem stored_numbers_spec :
    (∀ db, Reachable db → ∀ n ∈ db.numbers,
      n.data.length = 7 ∧ (∀ c ∈ n.data, c.isDigit = true) ∧ '-' ∉ n.data) ∧
    (∀ ns raw ns' n, resolve_or_create ns raw = .ok (ns', n) →
      n = stripDash raw ∧ '-' ∉ n.data) ∧
    (∀ recips arg recips', cmdToFunc recips arg = .added recips' →
      recips' = recips ++ [stripDash arg] ∧ Valid7 (stripDash arg)) := by
  refine ⟨?_, ?_, ?_⟩
  · intro db hr n hn
    exact (reachable_inv hr).numbersValid n hn
  · intro ns raw ns' n h
    obtain ⟨h1, _, _, _⟩ := resolve_ok h
    exact ⟨h1, h1 ▸ stripDash_no_dash raw⟩
  · intro recips arg recips' h
    unfold cmdToFunc at h
    simp only [] at h
    split at h
    · cases h
    · rename_i hcond
      split at h
      · cases h
      · injection h with h1
        have hcond2 : pyIsDigit (stripDash arg) = true ∧
            (stripDash arg).data.length = 7 := by
          rcases Bool.eq_false_or_eq_true (pyIsDigit (stripDash arg)) with hd | hd
          · rcases eq_or_ne ((stripDash arg).data.length) 7 with hl | hl
            · exact ⟨hd, hl⟩
            · exfalso
              apply hcond
              rw [Bool.or_eq_true]
              right
              simpa using hl
          · exfalso
            apply hcond
            rw [Bool.or_eq_true]
            left
            rw [hd]
            rfl
        obtain ⟨hd, hl⟩ := hcond2
        refine ⟨h1.symm, hl, ?_, stripDash_no_dash arg⟩
        intro c hc
        unfold pyIsDigit at hd
        rw [Bool.and_eq_true, List.all_eq_true] at hd
        simpa using hd.2 c hc

/-- Witness for C5: a stored number is 7 characters long, and the `to`
command records the stripped form of a hyphenated number. -/
theorem stored_numbers_spec_witness :
    ("5550001" : String).data.length = 7 ∧
      (["5550003"] : List String) = [] ++ [stripDash "555-0003"] := by
  constructor
  · exact (stored_numbers_spec.1
      ⟨["5550001", "5550002"], [(0, ⟨"", ["5550001", "5550002"], []⟩)],
        [⟨"5550001", 0, "hi", 0⟩]⟩
      (@Reachable.send emptyDb 0 "5550001" ["5550002"] "hi" _
        ⟨"5550001", 0, "hi", 0⟩ Reachable.init rfl)
      "5550001" (by decide)).1
  · exact (stored_numbers_spec.2.2 [] "555-0003" ["5550003"] (by decide)).1

/-- C8: `has_read` never fails — in a reachable store, a phone number
with no `Number` row cannot be a read marker, so `has_read` returns
false on a never-seen number instead of raising. -/
theorem has_read_unknown_spec (db : Db) (hr : Reachable db) (tid : Nat)
    (th : Thread) (hmem : (tid, th) ∈ db.threads) (n : String)
    (hn : stripDash n ∉ db.numbers) : Thread.has_read th n = false := by
  have hinv := reachable_inv hr
  unfold Thread.has_read
  cases hc : th.read.contains (stripDash n)
  · rfl
  · exfalso
    have hmem2 : stripDash n ∈ th.read := by simpa using hc
    exact hn (hinv.readStored (tid, th) hmem _ hmem2)

/-- Witness for C8: an unknown number reads as unread in a real store. -/
theorem has_read_unknown_spec_witness :
    Thread.has_read ⟨"", ["5550001", "5550002"], []⟩ "5550099" = false := by
  exact has_read_unknown_spec
    ⟨["5550001", "5550002"], [(0, ⟨"", ["5550001", "5550002"], []⟩)],
      [⟨"5550001", 0, "hi", 0⟩]⟩
    (@Reachable.send emptyDb 0 "5550001" ["5550002"] "hi" _
      ⟨"5550001", 0, "hi", 0⟩ Reachable.init rfl)
    0 ⟨"", ["5550001", "5550002"], []⟩ (by decide) "5550099" (by decide)

end Avenew
